import Mathlib

/-!
Verification development for the core engines of the pono model checker:
the k-induction prover (`kinduction.cpp`), the CEGAR value-abstraction
driver (`cegar_values.cpp`), and the IC3SA engine (`ic3sa.cpp`).

The first part embeds the k-induction engine.  Terms asserted to the SMT
solver are modelled semantically: a transition system is given by its set
of state variables (a list of variable names), an `init` predicate over
states, a `trans` relation between states, and a safety `prop` predicate.
A state is a valuation `V → D` of the variables.  A time-unrolled formula
(what the engine asserts into the solver) is modelled as a predicate over
traces `Nat → (V → D)`.  The SMT back-end is modelled as an oracle
mapping the current list of asserted formulas to a sat / unsat / unknown
answer; soundness of a `sat` answer (existence of a model) becomes an
explicit hypothesis where a claim needs it.
-/

set_option linter.unusedVariables false

/-- Result type of a prover's check_until (ProverResult in pono). -/
inductive ProverResult where
  | TRUE
  | FALSE
  | UNKNOWN
deriving DecidableEq, Repr

/-- Result of an SMT check_sat call (smt::Result in smt-switch). -/
inductive SatResult where
  | sat
  | unsat
  | unknown
deriving DecidableEq, Repr

/-- A transition system together with its safety property, as consumed by
the k-induction engine: state variables `vars`, predicates `init` and
`prop` over states, and the transition relation `trans`.  A state is a
valuation `V → D` of the variables. -/
structure TransSys (V D : Type) where
  vars : List V
  init : (V → D) → Prop
  trans : (V → D) → (V → D) → Prop
  prop : (V → D) → Prop

/-- A time-unrolled formula: a predicate over traces. -/
def TFormula (V D : Type) : Type := (Nat → V → D) → Prop

/-- The formula `true` (solver_->make_value(true)). -/
def tfTrue {V D : Type} : TFormula V D := fun _ => True

/-- The formula `false` (solver_->make_value(false)). -/
def tfFalse {V D : Type} : TFormula V D := fun _ => False

/-- Conjunction of unrolled formulas (make_term(PrimOp::And, ..)). -/
def tfAnd {V D : Type} (a b : TFormula V D) : TFormula V D := fun π => a π ∧ b π

/-- Disjunction of unrolled formulas (make_term(PrimOp::Or, ..)). -/
def tfOr {V D : Type} (a b : TFormula V D) : TFormula V D := fun π => a π ∨ b π

/-- Negation of an unrolled formula (make_term(PrimOp::Not, ..)). -/
def tfNot {V D : Type} (a : TFormula V D) : TFormula V D := fun π => ¬ a π

/-- Modelled from the spec: `Unroller.at_time` applied to a predicate over
current-state variables (such as `init`, `prop`, or `bad`): the result
refers to the step-`i` copies of the state variables, i.e. it evaluates
the predicate on the trace's state at time `i`. -/
def atTimeP {V D : Type} (p : (V → D) → Prop) (i : Nat) : TFormula V D :=
  fun π => p (π i)

/-- Modelled from the spec: `Unroller.at_time` applied to the transition
relation: `at_time(trans, i)` refers to step-`i` and step-`(i+1)` copies
of the state variables. -/
def atTimeT {V D : Type} (t : (V → D) → (V → D) → Prop) (i : Nat) : TFormula V D :=
  fun π => t (π i) (π (i + 1))

/-- Equality of a state variable at two times:
make_term(PrimOp::Equal, v@i, v@j). -/
def atTimeEq {V D : Type} (v : V) (i j : Nat) : TFormula V D :=
  fun π => π i v = π j v

namespace KInduction

/-- The mutable state of the k-induction engine (`KInduction` members
`reached_k_` and `simple_path_`) together with the state of its solver:
`levels` is the stack of solver context levels, most recently pushed
level first; each level lists the formulas asserted at that level in
assertion order. -/
structure EngSt (V D : Type) where
  reachedK : Int
  levels : List (List (TFormula V D))
  simplePath : TFormula V D

/-- solver_->push(). -/
def pushCtx {V D : Type} (st : EngSt V D) : EngSt V D :=
  { st with levels := [] :: st.levels }

/-- solver_->pop(). -/
def popCtx {V D : Type} (st : EngSt V D) : EngSt V D :=
  { st with levels := st.levels.tail }

/-- solver_->assert_formula(φ): appends φ to the current (top) level. -/
def assertF {V D : Type} (φ : TFormula V D) (st : EngSt V D) : EngSt V D :=
  { st with
    levels :=
      match st.levels with
      | [] => [[φ]]
      | l :: ls => (l ++ [φ]) :: ls }

/-- All formulas currently asserted in the solver, in assertion order
(bottom context level first). -/
def allAsserts {V D : Type} (st : EngSt V D) : List (TFormula V D) :=
  st.levels.reverse.flatten

/-- The state established by `KInduction::initialize`: `reached_k_ = -1`,
`solver_->reset_assertions()` (a single empty context level), and
`simple_path_ = true`. -/
def startSt (V D : Type) : EngSt V D :=
  { reachedK := -1, levels := [[]], simplePath := tfTrue }

/-- The SMT back-end, modelled as an oracle from the currently asserted
formulas to a sat/unsat/unknown answer. -/
def Oracle (V D : Type) : Type := List (TFormula V D) → SatResult

/-- KInduction::base_step(i).  Returns false iff a counterexample was
found (the caller then returns ProverResult::FALSE). -/
def base_step {V D : Type} (ts : TransSys V D) (oracle : Oracle V D) (i : Nat)
    (st : EngSt V D) : Bool × EngSt V D :=
  if (i : Int) ≤ st.reachedK then (true, st)
  else
    -- Term bad = solver_->make_term(PrimOp::Not, property_.prop());
    let bad : (V → D) → Prop := fun s => ¬ ts.prop s
    -- push; assert init@0; assert bad@i
    let st1 := assertF (atTimeP bad i) (assertF (atTimeP ts.init 0) (pushCtx st))
    let r := oracle (allAsserts st1)
    if r = SatResult.sat then (false, st1)
    else
      -- pop; assert trans@i; assert prop@i (persistent)
      let st2 := popCtx st1
      let st3 := assertF (atTimeP ts.prop i) (assertF (atTimeT ts.trans i) st2)
      (true, st3)

/-- KInduction::add_simple_path_constraint(i, j): conjoins to
`simple_path_` the disjunction over all state variables `v` of
`v@i ≠ v@j`, built exactly as in the source (starting from `false` and
folding `Or` over `ts_.states()`). -/
def add_simple_path_constraint {V D : Type} (ts : TransSys V D) (i j : Nat)
    (st : EngSt V D) : EngSt V D :=
  let disj :=
    ts.vars.foldl (fun acc v => tfOr acc (tfNot (atTimeEq v i j))) tfFalse
  { st with simplePath := tfAnd st.simplePath disj }

/-- KInduction::inductive_step(i).  Returns true iff the property was
proved (the caller then returns ProverResult::TRUE). -/
def inductive_step {V D : Type} (ts : TransSys V D) (oracle : Oracle V D) (i : Nat)
    (st : EngSt V D) : Bool × EngSt V D :=
  if (i : Int) ≤ st.reachedK then (false, st)
  else
    let st0 := (List.range i).foldl (fun s j => add_simple_path_constraint ts i j s) st
    -- push; assert simple_path_; assert bad@(i+1)
    let st1 :=
      assertF (atTimeP (fun s => ¬ ts.prop s) (i + 1)) (assertF st0.simplePath (pushCtx st0))
    let r := oracle (allAsserts st1)
    if r = SatResult.unsat then (true, st1)
    else
      let st2 := popCtx st1
      (false, { st2 with reachedK := st2.reachedK + 1 })

/-- The loop body of KInduction::check_until: iterations `i, i+1, …`
with `fuel` iterations remaining. -/
def check_until_aux {V D : Type} (ts : TransSys V D) (oracle : Oracle V D) :
    Nat → Nat → EngSt V D → ProverResult × EngSt V D
  | 0, _, st => (ProverResult.UNKNOWN, st)
  | fuel + 1, i, st =>
    -- if (!base_step(i)) return ProverResult::FALSE;
    match base_step ts oracle i st with
    | (false, st1) => (ProverResult.FALSE, st1)
    | (true, st1) =>
      -- if (inductive_step(i)) return ProverResult::TRUE;
      match inductive_step ts oracle i st1 with
      | (true, st2) => (ProverResult.TRUE, st2)
      | (false, st2) => check_until_aux ts oracle fuel (i + 1) st2

/-- KInduction::check_until(k): `for (i = 0; i <= k; ++i)`, so `k + 1`
iterations when `k ≥ 0` and none otherwise. -/
def check_until {V D : Type} (ts : TransSys V D) (oracle : Oracle V D) (k : Int)
    (st : EngSt V D) : ProverResult × EngSt V D :=
  check_until_aux ts oracle (k + 1).toNat 0 st

/-- A complete run of the engine as constructed (the constructor calls
`initialize`) followed by one `check_until(k)`. -/
def run {V D : Type} (ts : TransSys V D) (oracle : Oracle V D) (k : Int) :
    ProverResult × EngSt V D :=
  check_until ts oracle k (startSt V D)

/-- The persistent (context level 0) assertions accumulated by the base
steps of depths `0 … i-1`: `trans@j` and `prop@j` for each `j < i`. -/
def persistAsserts {V D : Type} (ts : TransSys V D) : Nat → List (TFormula V D)
  | 0 => []
  | i + 1 => persistAsserts ts i ++ [atTimeT ts.trans i, atTimeP ts.prop i]

/-- The full list of formulas asserted in the solver when the base-step
query of depth `i` is issued (in a run from the freshly initialized
state): the persistent assertions of the earlier depths, then `init@0`
and `¬prop@i` at the pushed level. -/
def baseQuery {V D : Type} (ts : TransSys V D) (i : Nat) : List (TFormula V D) :=
  persistAsserts ts i ++ [atTimeP ts.init 0, atTimeP (fun s => ¬ ts.prop s) i]


/-- The disjunction over the state variables of `v@i ≠ v@j`, as built by
add_simple_path_constraint. -/
def spDisj (ts : TransSys V D) (i j : Nat) : TFormula V D :=
  ts.vars.foldl (fun acc v => tfOr acc (tfNot (atTimeEq v i j))) tfFalse

/-- The constraints conjoined onto φ by the loop
`for (j = 0; j < i; ++j) add_simple_path_constraint(i, j)`. -/
def spAdds (ts : TransSys V D) (i : Nat) (φ : TFormula V D) : TFormula V D :=
  (List.range i).foldl (fun acc j => tfAnd acc (spDisj ts i j)) φ

/-- The engine state after the base and inductive steps of depths
`0, 1, …, n-1` have been performed (starting from the freshly
initialized state), i.e. after the inductive step at depth `n-1`.
This composes exactly the engine's `base_step` and `inductive_step`
in the order `check_until` performs them. -/
def iterState (ts : TransSys V D) (oracle : Oracle V D) : Nat → EngSt V D
  | 0 => startSt V D
  | n + 1 => (inductive_step ts oracle n (base_step ts oracle n (iterState ts oracle n)).2).2

/-- The accumulated `simple_path_` formula after the inductive step at
depth `n-1`: the conjunction (in the engine's association order) of the
disjunctions for all pairs `j < m < n`. -/
def spAccum (ts : TransSys V D) : Nat → TFormula V D
  | 0 => tfTrue
  | n + 1 => spAdds ts n (spAccum ts n)

/-- Two states agree on the transition system's state variables. -/
def stateEq (ts : TransSys V D) (a b : V → D) : Prop :=
  ∀ v ∈ ts.vars, a v = b v

/-- A tiny concrete transition system over one Boolean state variable. -/
def tsW : TransSys Unit Bool :=
  { vars := [()]
    init := fun _ => True
    trans := fun _ _ => True
    prop := fun s => s () = true }

/-- A concrete solver oracle that answers `sat` exactly on the depth-0
base query (which has two asserted formulas) and `unsat` elsewhere. -/
def oracleSat2 : Oracle Unit Bool :=
  fun A => if A.length = 2 then SatResult.sat else SatResult.unsat

/-- A concrete solver oracle that answers `unknown` on the depth-0 base
query (two asserted formulas) and `unsat` on larger queries. -/
def oracleUnk2 : Oracle Unit Bool :=
  fun A => if A.length ≤ 2 then SatResult.unknown else SatResult.unsat

/-- A concrete solver oracle that always answers `unsat`. -/
def oracleUnsatAll : Oracle Unit Bool := fun _ => SatResult.unsat

/-- A concrete trace whose states at times 0 and 1 differ. -/
def piW : Nat → Unit → Bool := fun t _ => t == 1

end KInduction

/-!
The second part embeds the term-level code of `cegar_values.cpp` and
`ic3sa.cpp`.  SMT terms are modelled by a small first-order AST: a term
is a symbolic constant, a value literal (with an opaque numeric payload),
or an operator application; every node carries its sort, as smt-switch
terms do.  Hash-consed term identity becomes structural equality.
-/

/-- SMT sorts (smt::Sort): BOOL, BV(width), INT, ARRAY(index, element). -/
inductive SortK where
  | bool
  | bv (w : Nat)
  | int
  | array (idx elem : SortK)
deriving DecidableEq, Repr

/-- Sort kinds (smt::SortKind), as tested by `get_sort_kind()`. -/
inductive SortKind where
  | BOOL
  | BV
  | INT
  | ARRAY
deriving DecidableEq, Repr

/-- The kind of a sort. -/
def kindOf : SortK → SortKind
  | SortK.bool => SortKind.BOOL
  | SortK.bv _ => SortKind.BV
  | SortK.int => SortKind.INT
  | SortK.array _ _ => SortKind.ARRAY

/-- Primitive operators (smt::PrimOp) used by the embedded code. -/
inductive PrimOp where
  | Not | And | Or | Implies | Equal | Distinct | BVComp
  | Mult | Div | Mod | Abs | Pow | IntDiv
  | BVMul | BVUdiv | BVSdiv | BVUrem | BVSrem | BVSmod
  | BVAdd | Ite
deriving DecidableEq, Repr

mutual
/-- An SMT term: symbolic constant, value literal, or operator
application.  Every term carries its sort. -/
inductive Trm where
  | sym (name : String) (sort : SortK)
  | val (payload : Nat) (sort : SortK)
  | app (op : PrimOp) (sort : SortK) (args : TrmList)
deriving DecidableEq, Repr

/-- A list of argument terms. -/
inductive TrmList where
  | nil
  | cons (t : Trm) (ts : TrmList)
deriving DecidableEq, Repr
end

/-- The sort of a term (Term::get_sort). -/
def Trm.sortOf : Trm → SortK
  | Trm.sym _ s => s
  | Trm.val _ s => s
  | Trm.app _ s _ => s

/-- Term::is_value(). -/
def Trm.is_value : Trm → Bool
  | Trm.val _ _ => true
  | _ => false

/-- Term::is_symbolic_const(). -/
def Trm.is_symbolic_const : Trm → Bool
  | Trm.sym _ _ => true
  | _ => false

/-- Printable operator names (for Term::to_string on applications). -/
def opStr : PrimOp → String
  | PrimOp.Not => "not" | PrimOp.And => "and" | PrimOp.Or => "or"
  | PrimOp.Implies => "=>" | PrimOp.Equal => "=" | PrimOp.Distinct => "distinct"
  | PrimOp.BVComp => "bvcomp" | PrimOp.Mult => "*" | PrimOp.Div => "/"
  | PrimOp.Mod => "mod" | PrimOp.Abs => "abs" | PrimOp.Pow => "pow"
  | PrimOp.IntDiv => "div" | PrimOp.BVMul => "bvmul" | PrimOp.BVUdiv => "bvudiv"
  | PrimOp.BVSdiv => "bvsdiv" | PrimOp.BVUrem => "bvurem" | PrimOp.BVSrem => "bvsrem"
  | PrimOp.BVSmod => "bvsmod" | PrimOp.BVAdd => "bvadd" | PrimOp.Ite => "ite"

mutual
/-- Term::to_string, used only to build the fresh-variable names
"__abs_<v>". -/
def trmStr : Trm → String
  | Trm.sym n _ => n
  | Trm.val p _ => toString p
  | Trm.app op _ args => "(" ++ opStr op ++ trmListStr args ++ ")"

def trmListStr : TrmList → String
  | TrmList.nil => ""
  | TrmList.cons t ts => " " ++ trmStr t ++ trmListStr ts
end

/-- The set `nl_ops` of operators that could create nonlinearities if a
constant argument were replaced by a (frozen) variable. -/
def nl_ops : List PrimOp :=
  [PrimOp.Mult, PrimOp.Div, PrimOp.Mod, PrimOp.Abs, PrimOp.Pow, PrimOp.IntDiv,
   PrimOp.BVMul, PrimOp.BVUdiv, PrimOp.BVSdiv, PrimOp.BVUrem, PrimOp.BVSrem,
   PrimOp.BVSmod]

/-- The fresh frozen state variable introduced for an abstracted value:
`ts_.make_statevar("__abs_" + term->to_string(), term->get_sort())`. -/
def freshVar (t : Trm) : Trm :=
  Trm.sym ("__abs_" ++ trmStr t) t.sortOf

/-- The mutable state of a `ValueAbstractor` walk: the identity-walker
cache (pairs `(visited term, rewritten term)`) and the
`abstracted_values_` map (pairs `(frozen var, original value)`). -/
structure AbsSt where
  cache : List (Trm × Trm)
  toVals : List (Trm × Trm)

/-- Cache lookup (IdentityWalker::query_cache). -/
def lookupT : List (Trm × Trm) → Trm → Option Trm
  | [], _ => none
  | p :: rest, t => if p.1 = t then some p.2 else lookupT rest t

/-- IdentityWalker::save_in_cache. -/
def saveCache (t r : Trm) (st : AbsSt) : AbsSt :=
  { st with cache := (t, r) :: st.cache }

mutual
/-- ValueAbstractor::visit_term, together with the identity walker's
depth-first traversal: if the term was already visited, its cached
rewrite is returned; otherwise its children are visited first
(post-order) and then the term itself is processed.  A non-array value
literal is replaced by a fresh frozen variable which is recorded in
`abstracted_values_`; an application whose operator is not in `nl_ops`
is rebuilt over the cached (abstracted) children; anything else —
symbols, array-sorted values, and `nl_ops` applications — is kept
unchanged (but the children of `nl_ops` applications have still been
visited). -/
def visit_term : Trm → AbsSt → Trm × AbsSt
  | t, st =>
    match lookupT st.cache t with
    | some r => (r, st)
    | none =>
      match t with
      | Trm.sym n s => (t, saveCache t t st)
      | Trm.val p s =>
        if kindOf s ≠ SortKind.ARRAY then
          -- create a frozen variable
          let frozen_var := freshVar (Trm.val p s)
          (frozen_var,
           { cache := (t, frozen_var) :: st.cache,
             toVals := (frozen_var, t) :: st.toVals })
        else (t, saveCache t t st)
      | Trm.app op s args =>
        let ca := visit_list args st
        if op ∉ nl_ops then
          -- rebuild over the cached children
          let r := Trm.app op s ca.1
          (r, saveCache t r ca.2)
        else (t, saveCache t t ca.2)

def visit_list : TrmList → AbsSt → TrmList × AbsSt
  | TrmList.nil, st => (TrmList.nil, st)
  | TrmList.cons t ts, st =>
    let c := visit_term t st
    let cs := visit_list ts c.2
    (TrmList.cons c.1 cs.1, cs.2)
end

mutual
/-- A structural specification of the value abstraction, stated directly
from the spec's words: replace every non-array value leaf by its fresh
frozen variable, keep `nl_ops` applications (and their subterms)
unchanged, and rebuild every other application over the abstracted
children. -/
def specAbs : Trm → Trm
  | Trm.sym n s => Trm.sym n s
  | Trm.val p s =>
    if kindOf s ≠ SortKind.ARRAY then freshVar (Trm.val p s) else Trm.val p s
  | Trm.app op s args =>
    if op ∉ nl_ops then Trm.app op s (specAbsList args) else Trm.app op s args

def specAbsList : TrmList → TrmList
  | TrmList.nil => TrmList.nil
  | TrmList.cons t ts => TrmList.cons (specAbs t) (specAbsList ts)
end

mutual
/-- Does a non-array value literal occur anywhere in the term? -/
def hasValNA : Trm → Bool
  | Trm.sym _ _ => false
  | Trm.val _ s => kindOf s ≠ SortKind.ARRAY
  | Trm.app _ _ args => hasValNAList args

def hasValNAList : TrmList → Bool
  | TrmList.nil => false
  | TrmList.cons t ts => hasValNA t || hasValNAList ts
end

mutual
/-- `occursIn v t`: v occurs as a subterm of t (t itself included). -/
def occursIn (v : Trm) : Trm → Bool
  | Trm.sym n s => decide (v = Trm.sym n s)
  | Trm.val p s => decide (v = Trm.val p s)
  | Trm.app op s args => decide (v = Trm.app op s args) || occursInList v args

def occursInList (v : Trm) : TrmList → Bool
  | TrmList.nil => false
  | TrmList.cons t ts => occursIn v t || occursInList v ts
end

/-- `IsValNA v`: v is a value literal of non-array sort — the terms the
abstraction replaces. -/
def IsValNA (v : Trm) : Prop :=
  v.is_value = true ∧ kindOf v.sortOf ≠ SortKind.ARRAY

/-- Binary application of a boolean-valued operator
(solver_->make_term(op, a, b)). -/
def mkApp2 (op : PrimOp) (a b : Trm) : Trm :=
  Trm.app op SortK.bool (TrmList.cons a (TrmList.cons b TrmList.nil))

/-- Unary application of a boolean-valued operator. -/
def mkApp1 (op : PrimOp) (a : Trm) : Trm :=
  Trm.app op SortK.bool (TrmList.cons a TrmList.nil)

/-- The relational transition system data touched by
CegarValues::cegar_abstract: the functional/relational flag, `init`,
`trans`, and the `assign_next` pairs. -/
structure RTS where
  functional : Bool
  init : Trm
  trans : Trm
  nexts : List (Trm × Trm)

/-- The outputs of CegarValues::cegar_abstract: the abstracted
transition system (`prover_ts_` after `set_behavior` and the frozen
`assign_next` loop), the new `bad_` term, and the `prover_to_vals`
map. -/
structure AbsResult where
  ts : RTS
  bad : Trm
  toVals : List (Trm × Trm)

/-- CegarValues::cegar_abstract.  Walks `init`, `trans` and the property
with one shared `ValueAbstractor`, sets the abstracted behavior, builds
`bad_ = Not(visit(prop))`, asserts that at least one value was
abstracted, and freezes every abstraction variable with
`assign_next(var, var)`.  A functional transition system and the failed
assertion are modelled as errors. -/
def cegar_abstract (ts : RTS) (prop : Trm) : Except String AbsResult :=
  if ts.functional then Except.error "Functional TS NYI in cegar_values"
  else
    let ri := visit_term ts.init { cache := [], toVals := [] }
    let rt := visit_term ts.trans ri.2
    let rp := visit_term prop rt.2
    let bad := mkApp1 PrimOp.Not rp.1
    -- assert(prover_to_vals.size());
    if rp.2.toVals.isEmpty then
      Except.error "assertion failed: prover_to_vals.size()"
    else
      Except.ok
        { ts :=
            { functional := ts.functional
              init := ri.1
              trans := rt.1
              -- prover_ts_.assign_next(elem.first, elem.first);
              nexts := ts.nexts ++ rp.2.toVals.map (fun p => (p.1, p.1)) }
          bad := bad
          toVals := rp.2.toVals }

mutual
/-- Modelled from the spec: `Unroller.at_time` on solver terms (the
Unroller source is not under src/).  Symbols are replaced by their
step-`i` copies; values and operators are preserved structurally.  The
claims settled with it do not depend on the next-state tagging. -/
def atTimeTrm (i : Nat) : Trm → Trm
  | Trm.sym n s => Trm.sym (n ++ "@" ++ toString i) s
  | Trm.val p s => Trm.val p s
  | Trm.app op s args => Trm.app op s (atTimeTrmList i args)

def atTimeTrmList (i : Nat) : TrmList → TrmList
  | TrmList.nil => TrmList.nil
  | TrmList.cons t ts => TrmList.cons (atTimeTrm i t) (atTimeTrmList i ts)
end

/-- CegarValues::cegar_refine.  Builds the BMC formula of the abstract
system for the witness length, asserts the label-guarded value
equalities, checks satisfiability under all assumption labels, pops —
and then unconditionally throws
PonoException("CegarValues::cegar_refine NYI"): the refinement itself
(`TODO fill this in!` in the source) is not implemented, so the
`return r.is_unsat();` after the throw is dead code. -/
def cegar_refine (cex_length : Nat) (cegval_init cegval_trans cegval_bad : Trm)
    (to_vals : List (Trm × Trm)) (cegval_labels : Trm → Trm)
    (check_sat_assuming : List Trm → List Trm → SatResult) : Except String Bool :=
  let bmcform0 := atTimeTrm 0 cegval_init
  let bmcform1 := (List.range cex_length).foldl
      (fun acc i => mkApp2 PrimOp.And acc (atTimeTrm i cegval_trans)) bmcform0
  let bmcform := mkApp2 PrimOp.And bmcform1 (atTimeTrm cex_length cegval_bad)
  let assumps := to_vals.map (fun p => cegval_labels p.1)
  let equalities := to_vals.map (fun p => mkApp2 PrimOp.Equal p.1 p.2)
  -- assert(imp) for each lbl -> eqval@0, under a push
  let asserted := bmcform :: to_vals.map (fun p =>
      mkApp2 PrimOp.Implies (cegval_labels p.1)
        (atTimeTrm 0 (mkApp2 PrimOp.Equal p.1 p.2)))
  let r := check_sat_assuming asserted assumps
  -- pop; throw PonoException("CegarValues::cegar_refine NYI");
  Except.error "CegarValues::cegar_refine NYI"

/-- CegarValues::check_until: repeatedly run the inner prover; on a
FALSE (abstract counterexample) call cegar_refine, give up with FALSE
when refinement says the counterexample is real, iterate otherwise.
An exception from cegar_refine propagates.  The fuel argument bounds
the loop; fuel exhaustion returns UNKNOWN (unreachable here: the
refinement stub always throws, so any positive fuel behaves alike). -/
def cegar_check_until (inner : Int → ProverResult) (refine : Except String Bool) :
    Nat → Int → Except String ProverResult
  | 0, _ => Except.ok ProverResult.UNKNOWN
  | fuel + 1, k =>
    let res := inner k
    if res = ProverResult.FALSE then
      match refine with
      | Except.error e => Except.error e
      | Except.ok b =>
        if !b then Except.ok ProverResult.FALSE
        else cegar_check_until inner refine fuel k
    else Except.ok res

/-- The sort check IC3SA::check_ts performs on one list of variables:
throw on the first variable whose sort kind is neither BOOL nor BV. -/
def checkVarSorts : List Trm → Except String Unit
  | [] => Except.ok ()
  | v :: rest =>
    if kindOf v.sortOf ≠ SortKind.BOOL ∧ kindOf v.sortOf ≠ SortKind.BV then
      Except.error "IC3SA currently only supports bit-vectors"
    else checkVarSorts rest

/-- IC3SA::check_ts: checks all state variables, then all input
variables.  The method is const — it modifies nothing, which the
embedding reflects by being a pure function of the variable lists. -/
def check_ts (statevars inputvars : List Trm) : Except String Unit :=
  match checkVarSorts statevars with
  | Except.error e => Except.error e
  | Except.ok _ => checkVarSorts inputvars

/-- Error raised by dereferencing an iterator at the past-the-end
position (undefined behaviour in the C++ source, modelled as a hard
failure). -/
inductive IterErr where
  | derefEnd
deriving DecidableEq, Repr

/-- The running representative selection of IC3SA::construct_partition:
the current representative, whether a symbolic constant has been found,
and whether the current representative is still a value literal. -/
structure ReprSt where
  repr : Trm
  found : Bool
  reprVal : Bool
deriving DecidableEq, Repr

/-- The representative update performed for each traversed `term`:
prefer a symbolic constant (fixing the choice), else a non-value term
while the current representative is still a value. -/
def updateRepr (r : ReprSt) (term : Trm) : ReprSt :=
  if !r.found then
    if term.is_symbolic_const then
      { repr := term, found := true, reprVal := false }
    else if !term.is_value && r.reprVal then
      { repr := term, found := r.found, reprVal := false }
    else r
  else r

/-- The equality-chain loop of IC3SA::construct_partition
(`while (it != end) { const Term & term = *(++it); … }`), with the
iterator modelled as the remaining suffix of the class's term list:
the loop guard tests the current position against `end`, and the body
dereferences the incremented iterator — which is the past-the-end
position whenever the current element was the last one. -/
def eq_chain (last : Trm) (suffix : List Trm) (cube : List Trm) (r : ReprSt) :
    Except IterErr (List Trm × ReprSt) :=
  match suffix with
  | [] => Except.ok (cube, r)
  | _ :: rest =>
    match rest with
    | [] => Except.error IterErr.derefEnd
    | term :: _ =>
      eq_chain term rest (cube ++ [mkApp2 PrimOp.Equal last term]) (updateRepr r term)

/-- Processing of one equivalence class (value plus its terms):
initialize the representative to the class value, dereference
`cbegin()` for `last` (past-the-end for an empty class), and run the
equality-chain loop. -/
def process_class (classVal : Trm) (terms : List Trm) (cube : List Trm) :
    Except IterErr (List Trm × ReprSt) :=
  let r0 : ReprSt := { repr := classVal, found := false, reprVal := true }
  match terms with
  | [] => Except.error IterErr.derefEnd
  | last :: _ => eq_chain last terms cube r0

/-- All classes of one sort, in order; the computed representative of
each class is discarded, exactly as in the source (nothing is ever
pushed into `representatives`). -/
def process_classes : List (Trm × List Trm) → List Trm → Except IterErr (List Trm)
  | [], cube => Except.ok cube
  | c :: rest, cube =>
    match process_class c.1 c.2 cube with
    | Except.error e => Except.error e
    | Except.ok cr => process_classes rest cr.1

/-- The pairwise disequalities `Distinct(representatives[i], representatives[j])`
for `i < j`. -/
def pair_diseqs : List Trm → List Trm
  | [] => []
  | t :: rest => rest.map (fun u => mkApp2 PrimOp.Distinct t u) ++ pair_diseqs rest

/-- One iteration of the per-sort loop of IC3SA::construct_partition:
`TermVec representatives;` (which the class loop never populates),
the class loop, and the disequalities between the collected
representatives. -/
def process_sort (classes : List (Trm × List Trm)) (cube : List Trm) :
    Except IterErr (List Trm) :=
  let representatives : List Trm := []
  match process_classes classes cube with
  | Except.error e => Except.error e
  | Except.ok cube1 => Except.ok (cube1 ++ pair_diseqs representatives)

/-- IC3SA::construct_partition over the equivalence classes (grouped by
sort), appending to `out_cube`. -/
def construct_partition : List (SortK × List (Trm × List Trm)) → List Trm →
    Except IterErr (List Trm)
  | [], cube => Except.ok cube
  | s :: rest, cube =>
    match process_sort s.2 cube with
    | Except.error e => Except.error e
    | Except.ok cube1 => construct_partition rest cube1

/-- Cached rewrites are the structural abstraction. -/
def CacheSpec (st : AbsSt) : Prop :=
  ∀ p ∈ st.cache, p.2 = specAbs p.1

/-- Every non-array value occurring under an already-visited term has
its frozen variable recorded in `abstracted_values_`. -/
def CacheClosed (st : AbsSt) : Prop :=
  ∀ p ∈ st.cache, ∀ v : Trm, IsValNA v → occursIn v p.1 = true →
    (freshVar v, v) ∈ st.toVals

/-- Every `abstracted_values_` entry maps the fresh frozen variable of a
non-array value back to that value. -/
def ValsWF (st : AbsSt) : Prop :=
  ∀ q ∈ st.toVals, IsValNA q.2 ∧ q.1 = freshVar q.2

/-- The walker-state invariant maintained by ValueAbstractor. -/
def AbsInv (st : AbsSt) : Prop :=
  CacheSpec st ∧ CacheClosed st ∧ ValsWF st

/-- Witness input for C7: a relational system whose init compares a
state variable with the value 0 of sort BV(8). -/
def tsC7 : RTS :=
  { functional := false
    init := mkApp2 PrimOp.Equal (Trm.sym "x" (SortK.bv 8)) (Trm.val 0 (SortK.bv 8))
    trans := mkApp2 PrimOp.Equal (Trm.sym "x.next" (SortK.bv 8)) (Trm.sym "x" (SortK.bv 8))
    nexts := [] }

/-- Witness property for C7. -/
def propC7 : Trm := Trm.sym "p" SortK.bool

/-- The concrete output of cegar_abstract on the C7 witness input. -/
def resC7 : AbsResult :=
  { ts :=
      { functional := false
        init := mkApp2 PrimOp.Equal (Trm.sym "x" (SortK.bv 8)) (Trm.sym "__abs_0" (SortK.bv 8))
        trans := mkApp2 PrimOp.Equal (Trm.sym "x.next" (SortK.bv 8)) (Trm.sym "x" (SortK.bv 8))
        nexts := [(Trm.sym "__abs_0" (SortK.bv 8), Trm.sym "__abs_0" (SortK.bv 8))] }
    bad := mkApp1 PrimOp.Not (Trm.sym "p" SortK.bool)
    toVals := [(Trm.sym "__abs_0" (SortK.bv 8), Trm.val 0 (SortK.bv 8))] }

/-- Witness input for C9: a value-free relational system. -/
def tsC9 : RTS :=
  { functional := false
    init := Trm.sym "a" SortK.bool
    trans := Trm.sym "b" SortK.bool
    nexts := [] }


namespace KInduction

variable {V D : Type}

/-- base_step leaves `simple_path_` untouched on every branch. -/
lemma base_step_simplePath (ts : TransSys V D) (oracle : Oracle V D) (i : Nat)
    (st : EngSt V D) : (base_step ts oracle i st).2.simplePath = st.simplePath := by
  rw [base_step]
  split
  · rfl
  · dsimp only
    split <;> rfl

/-- base_step leaves `reached_k_` untouched on every branch. -/
lemma base_step_reachedK (ts : TransSys V D) (oracle : Oracle V D) (i : Nat)
    (st : EngSt V D) : (base_step ts oracle i st).2.reachedK = st.reachedK := by
  rw [base_step]
  split
  · rfl
  · dsimp only
    split <;> rfl


/-- The simple-path loop of inductive_step only rewrites `simple_path_`,
by exactly the formula-level fold of `add_simple_path_constraint`'s
disjunctions. -/
lemma foldl_spc (ts : TransSys V D) (i : Nat) :
    ∀ (l : List Nat) (st : EngSt V D),
      l.foldl (fun s j => add_simple_path_constraint ts i j s) st =
        { st with simplePath := l.foldl (fun acc j => tfAnd acc (spDisj ts i j)) st.simplePath } := by
  intro l
  induction l with
  | nil => intro st; rfl
  | cons a l ih =>
    intro st
    simp only [List.foldl_cons]
    rw [ih]
    rfl

/-- inductive_step rewrites `simple_path_` to `spAdds` of the old value
whenever the depth was not already reached. -/
lemma inductive_step_simplePath (ts : TransSys V D) (oracle : Oracle V D) (i : Nat)
    (st : EngSt V D) (h : ¬ ((i : Int) ≤ st.reachedK)) :
    (inductive_step ts oracle i st).2.simplePath = spAdds ts i st.simplePath := by
  rw [inductive_step, if_neg h]
  dsimp only
  rw [foldl_spc]
  split <;> rfl

/-- inductive_step increases `reached_k_` by at most one. -/
lemma inductive_step_reachedK (ts : TransSys V D) (oracle : Oracle V D) (i : Nat)
    (st : EngSt V D) : (inductive_step ts oracle i st).2.reachedK ≤ st.reachedK + 1 := by
  rw [inductive_step]
  split
  · change st.reachedK ≤ st.reachedK + 1
    omega
  · dsimp only
    rw [foldl_spc]
    split
    · change st.reachedK ≤ st.reachedK + 1
      omega
    · change st.reachedK + 1 ≤ st.reachedK + 1
      omega

end KInduction

namespace KInduction

variable {V D : Type}


lemma iterState_reachedK (ts : TransSys V D) (oracle : Oracle V D) :
    ∀ n, (iterState ts oracle n).reachedK < (n : Int) := by
  intro n
  induction n with
  | zero =>
    show (-1 : Int) < 0
    omega
  | succ n ih =>
    show (inductive_step ts oracle n (base_step ts oracle n (iterState ts oracle n)).2).2.reachedK < ((n + 1 : Nat) : Int)
    have h1 := inductive_step_reachedK ts oracle n (base_step ts oracle n (iterState ts oracle n)).2
    have h2 := base_step_reachedK ts oracle n (iterState ts oracle n)
    push_cast
    omega

/-- The `simple_path_` component of the engine state after the inductive
step at depth `n-1` is the accumulated constraint `spAccum`. -/
lemma iterState_simplePath (ts : TransSys V D) (oracle : Oracle V D) :
    ∀ n, (iterState ts oracle n).simplePath = spAccum ts n := by
  intro n
  induction n with
  | zero => rfl
  | succ n ih =>
    show (inductive_step ts oracle n (base_step ts oracle n (iterState ts oracle n)).2).2.simplePath = _
    have hrk : ¬ ((n : Int) ≤ (base_step ts oracle n (iterState ts oracle n)).2.reachedK) := by
      rw [base_step_reachedK]
      have := iterState_reachedK ts oracle n
      omega
    rw [inductive_step_simplePath ts oracle n _ hrk, base_step_simplePath, ih]
    rfl

/-- Semantics of the engine's `Or`-fold: the fold of `tfOr` over a list
starting from φ holds iff φ holds or some element's formula holds. -/
lemma foldl_or_sem {α : Type} (f : α → TFormula V D) :
    ∀ (l : List α) (φ : TFormula V D) (π : Nat → V → D),
      (l.foldl (fun acc a => tfOr acc (f a)) φ) π ↔ (φ π ∨ ∃ a ∈ l, f a π) := by
  intro l
  induction l with
  | nil =>
    intro φ π
    simp
  | cons a l ih =>
    intro φ π
    simp only [List.foldl_cons]
    rw [ih]
    simp only [tfOr, List.mem_cons]
    constructor
    · rintro ((h | h) | ⟨b, hb, h⟩)
      · exact Or.inl h
      · exact Or.inr ⟨a, Or.inl rfl, h⟩
      · exact Or.inr ⟨b, Or.inr hb, h⟩
    · rintro (h | ⟨b, (rfl | hb), h⟩)
      · exact Or.inl (Or.inl h)
      · exact Or.inl (Or.inr h)
      · exact Or.inr ⟨b, hb, h⟩

/-- Semantics of the engine's `And`-fold. -/
lemma foldl_and_sem {α : Type} (f : α → TFormula V D) :
    ∀ (l : List α) (φ : TFormula V D) (π : Nat → V → D),
      (l.foldl (fun acc a => tfAnd acc (f a)) φ) π ↔ (φ π ∧ ∀ a ∈ l, f a π) := by
  intro l
  induction l with
  | nil =>
    intro φ π
    simp
  | cons a l ih =>
    intro φ π
    simp only [List.foldl_cons]
    rw [ih]
    simp only [tfAnd, List.mem_cons]
    constructor
    · rintro ⟨⟨h1, h2⟩, h3⟩
      exact ⟨h1, fun b hb => hb.elim (fun h => h ▸ h2) (h3 b)⟩
    · rintro ⟨h1, h2⟩
      exact ⟨⟨h1, h2 a (Or.inl rfl)⟩, fun b hb => h2 b (Or.inr hb)⟩

/-- Semantics of the simple-path disjunction for one pair of times. -/
lemma spDisj_sem (ts : TransSys V D) (i j : Nat) (π : Nat → V → D) :
    spDisj ts i j π ↔ ∃ v ∈ ts.vars, π i v ≠ π j v := by
  rw [spDisj, foldl_or_sem]
  simp [tfFalse, tfNot, atTimeEq]

/-- Semantics of the accumulated simple-path constraint: it holds iff for
every pair of depths `j < m < n` some state variable differs between
times `m` and `j`. -/
lemma spAccum_sem (ts : TransSys V D) :
    ∀ (n : Nat) (π : Nat → V → D),
      spAccum ts n π ↔ ∀ m, m < n → ∀ j, j < m → ∃ v ∈ ts.vars, π m v ≠ π j v := by
  intro n
  induction n with
  | zero =>
    intro π
    simp [spAccum, tfTrue]
  | succ n ih =>
    intro π
    show spAdds ts n (spAccum ts n) π ↔ _
    rw [spAdds, foldl_and_sem]
    constructor
    · rintro ⟨h1, h2⟩ m hm j hj
      rcases Nat.lt_succ_iff_lt_or_eq.mp hm with hm' | rfl
      · exact (ih π).mp h1 m hm' j hj
      · exact (spDisj_sem ts m j π).mp (h2 j (List.mem_range.mpr hj))
    · intro h
      refine ⟨(ih π).mpr (fun m hm j hj => h m (Nat.lt_succ_of_lt hm) j hj), ?_⟩
      intro j hj
      exact (spDisj_sem ts n j π).mpr (h n (Nat.lt_succ_self n) j (List.mem_range.mp hj))


end KInduction

namespace KInduction

variable {V D : Type}

/-- Evaluation of base_step on the state an in-progress fresh run has at
the start of iteration `i`: one context level holding the persistent
assertions `P`, and `reached_k_ = i - 1`. -/
lemma base_step_run (ts : TransSys V D) (oracle : Oracle V D) (i : Nat)
    (P : List (TFormula V D)) (sp : TFormula V D) :
    base_step ts oracle i ⟨(i : Int) - 1, [P], sp⟩ =
      if oracle (P ++ [atTimeP ts.init 0, atTimeP (fun s => ¬ ts.prop s) i]) = SatResult.sat
      then (false, ⟨(i : Int) - 1,
                    [[atTimeP ts.init 0, atTimeP (fun s => ¬ ts.prop s) i], P], sp⟩)
      else (true, ⟨(i : Int) - 1,
                   [P ++ [atTimeT ts.trans i, atTimeP ts.prop i]], sp⟩) := by
  have hc : ¬ ((i : Int) ≤ (EngSt.mk ((i : Int) - 1) [P] sp).reachedK) := by
    show ¬ ((i : Int) ≤ (i : Int) - 1)
    omega
  rw [base_step, if_neg hc]
  simp [pushCtx, assertF, popCtx, allAsserts, List.append_assoc]

/-- Evaluation of inductive_step on the state an in-progress fresh run
has after the base step of iteration `i` succeeded. -/
lemma inductive_step_run (ts : TransSys V D) (oracle : Oracle V D) (i : Nat)
    (P : List (TFormula V D)) (sp : TFormula V D) :
    inductive_step ts oracle i ⟨(i : Int) - 1, [P], sp⟩ =
      if oracle (P ++ [spAdds ts i sp, atTimeP (fun s => ¬ ts.prop s) (i + 1)]) = SatResult.unsat
      then (true, ⟨(i : Int) - 1,
                   [[spAdds ts i sp, atTimeP (fun s => ¬ ts.prop s) (i + 1)], P],
                   spAdds ts i sp⟩)
      else (false, ⟨(i : Int) - 1 + 1, [P], spAdds ts i sp⟩) := by
  have hc : ¬ ((i : Int) ≤ (EngSt.mk ((i : Int) - 1) [P] sp).reachedK) := by
    show ¬ ((i : Int) ≤ (i : Int) - 1)
    omega
  rw [inductive_step, if_neg hc]
  dsimp only
  rw [foldl_spc]
  show (if oracle _ = SatResult.unsat then _ else _) = _
  simp [pushCtx, assertF, popCtx, allAsserts, spAdds, List.append_assoc]

/-- Master characterization of a fresh run's loop from iteration `i`:
if it returns FALSE then some base-step query in range was answered sat,
and the final context stack is balanced (one level) exactly when the
result is UNKNOWN, with exactly one extra pushed level on the FALSE and
TRUE exits. -/
lemma check_until_aux_run (ts : TransSys V D) (oracle : Oracle V D) :
    ∀ (fuel i : Nat) (sp : TFormula V D),
      ((check_until_aux ts oracle fuel i ⟨(i : Int) - 1, [persistAsserts ts i], sp⟩).1 =
          ProverResult.FALSE →
        ∃ m, i ≤ m ∧ m < i + fuel ∧ oracle (baseQuery ts m) = SatResult.sat)
      ∧ ((check_until_aux ts oracle fuel i ⟨(i : Int) - 1, [persistAsserts ts i], sp⟩).1 =
          ProverResult.UNKNOWN →
        (check_until_aux ts oracle fuel i ⟨(i : Int) - 1, [persistAsserts ts i], sp⟩).2.levels.length = 1)
      ∧ ((check_until_aux ts oracle fuel i ⟨(i : Int) - 1, [persistAsserts ts i], sp⟩).1 ≠
          ProverResult.UNKNOWN →
        (check_until_aux ts oracle fuel i ⟨(i : Int) - 1, [persistAsserts ts i], sp⟩).2.levels.length = 2) := by
  intro fuel
  induction fuel with
  | zero =>
    intro i sp
    refine ⟨?_, ?_, ?_⟩
    · intro h
      simp [check_until_aux] at h
    · intro h
      rfl
    · intro h
      exact absurd rfl h
  | succ n ih =>
    intro i sp
    rw [check_until_aux, base_step_run]
    by_cases hq : oracle (persistAsserts ts i ++
        [atTimeP ts.init 0, atTimeP (fun s => ¬ ts.prop s) i]) = SatResult.sat
    · rw [if_pos hq]
      refine ⟨?_, ?_, ?_⟩
      · intro _
        exact ⟨i, le_refl i, by omega, hq⟩
      · intro h
        exact ProverResult.noConfusion h
      · intro _
        rfl
    · rw [if_neg hq]
      dsimp only
      rw [inductive_step_run]
      by_cases hq2 : oracle ((persistAsserts ts i ++ [atTimeT ts.trans i, atTimeP ts.prop i]) ++
          [spAdds ts i sp, atTimeP (fun s => ¬ ts.prop s) (i + 1)]) = SatResult.unsat
      · rw [if_pos hq2]
        refine ⟨?_, ?_, ?_⟩
        · intro h
          exact ProverResult.noConfusion h
        · intro h
          exact ProverResult.noConfusion h
        · intro _
          rfl
      · rw [if_neg hq2]
        dsimp only
        have hstate : (EngSt.mk ((i : Int) - 1 + 1)
              [persistAsserts ts i ++ [atTimeT ts.trans i, atTimeP ts.prop i]]
              (spAdds ts i sp)) =
            ⟨((i + 1 : Nat) : Int) - 1, [persistAsserts ts (i + 1)], spAdds ts i sp⟩ := by
          have h1 : ((i : Int) - 1 + 1) = ((i + 1 : Nat) : Int) - 1 := by
            push_cast
            omega
          rw [h1]
          rfl
        rw [hstate]
        obtain ⟨ha, hb, hc⟩ := ih (i + 1) (spAdds ts i sp)
        refine ⟨?_, hb, hc⟩
        intro h
        obtain ⟨m, hm1, hm2, hm3⟩ := ha h
        exact ⟨m, by omega, by omega, hm3⟩

end KInduction

namespace KInduction

variable {V D : Type}

lemma mem_persist_trans (ts : TransSys V D) :
    ∀ (j m : Nat), j < m → atTimeT ts.trans j ∈ persistAsserts ts m := by
  intro j m
  induction m with
  | zero =>
    intro h
    omega
  | succ m ih =>
    intro h
    rw [persistAsserts]
    rcases Nat.lt_succ_iff_lt_or_eq.mp h with h' | rfl
    · exact List.mem_append_left _ (ih h')
    · exact List.mem_append_right _ (by simp)

lemma startSt_eq (ts : TransSys V D) :
    startSt V D = (⟨(0 : Int) - 1, [persistAsserts ts 0], tfTrue⟩ : EngSt V D) := rfl


end KInduction

open KInduction in
/-- C3: if `KInduction::check_until(k)` (on a freshly initialized engine)
returns UNSAFE, then — provided the solver's `sat` answers on the base
queries it was actually asked are sound — for some depth `m ≤ k` the
formula `init@0 ∧ trans@0 ∧ … ∧ trans@(m-1) ∧ ¬prop@m` is satisfiable:
there is a trace whose step 0 satisfies `init`, whose consecutive steps
up to `m` are related by `trans`, and whose step `m` violates the
property. -/
theorem kinduction_unsafe_has_cex {V D : Type} (ts : TransSys V D) (oracle : Oracle V D)
    (k : Int)
    (hres : (KInduction.run ts oracle k).1 = ProverResult.FALSE)
    (hsound : ∀ m : Nat, (m : Int) ≤ k → oracle (baseQuery ts m) = SatResult.sat →
      ∃ π : Nat → V → D, ∀ φ ∈ baseQuery ts m, φ π) :
    ∃ m : Nat, (m : Int) ≤ k ∧ ∃ π : Nat → V → D,
      ts.init (π 0) ∧ (∀ j, j < m → ts.trans (π j) (π (j + 1))) ∧ ¬ ts.prop (π m) := by
  rw [KInduction.run, check_until, startSt_eq ts] at hres
  obtain ⟨m, hm0, hm1, hmq⟩ := (check_until_aux_run ts oracle (k + 1).toNat 0 tfTrue).1 hres
  have hmk : (m : Int) ≤ k := by omega
  obtain ⟨π, hπ⟩ := hsound m hmk hmq
  refine ⟨m, hmk, π, ?_, ?_, ?_⟩
  · exact hπ (atTimeP ts.init 0)
      (by rw [baseQuery]; exact List.mem_append_right _ (by simp))
  · intro j hj
    exact hπ (atTimeT ts.trans j)
      (by rw [baseQuery]; exact List.mem_append_left _ (mem_persist_trans ts j m hj))
  · exact hπ (atTimeP (fun s => ¬ ts.prop s) m)
      (by rw [baseQuery]; exact List.mem_append_right _ (by simp))

open KInduction in
/-- Witness for C3 at a concrete input: a one-variable Boolean system
whose property fails in the initial state, with a sound oracle answering
`sat` on the depth-0 base query; the run returns UNSAFE and the
counterexample trace exists. -/
theorem kinduction_unsafe_has_cex_witness :
    ∃ m : Nat, (m : Int) ≤ 0 ∧ ∃ π : Nat → Unit → Bool,
      tsW.init (π 0) ∧ (∀ j, j < m → tsW.trans (π j) (π (j + 1))) ∧ ¬ tsW.prop (π m) :=
  kinduction_unsafe_has_cex tsW oracleSat2 0 (by rfl)
    (by
      intro m hm hsat
      have hm0 : m = 0 := by omega
      subst hm0
      refine ⟨fun _ _ => false, ?_⟩
      intro φ hφ
      simp only [baseQuery, persistAsserts, List.nil_append, List.mem_cons,
        List.mem_singleton, List.not_mem_nil, or_false] at hφ
      rcases hφ with rfl | rfl
      · exact trivial
      · simp [atTimeP, tsW])

open KInduction in
/-- C2 (failing run): with the solver answering UNKNOWN on the depth-0
base-step query (and UNSAT on the depth-0 inductive query),
`KInduction::check_until(0)` does NOT return UNKNOWN: `base_step`
treats the UNKNOWN answer like UNSAT, permanently asserts `prop@0`
into the solver context, and the engine goes on to report TRUE (SAFE). -/
theorem kinduction_unknown_mishandled :
    (KInduction.run tsW oracleUnk2 0).1 = ProverResult.TRUE ∧
    atTimeP tsW.prop 0 ∈ (KInduction.run tsW oracleUnk2 0).2.levels.flatten := by
  constructor
  · rfl
  · have h : (KInduction.run tsW oracleUnk2 0).2.levels =
        [[tfTrue, atTimeP (fun s => ¬ tsW.prop s) 1],
         [atTimeT tsW.trans 0, atTimeP tsW.prop 0]] := rfl
    rw [h]
    simp

open KInduction in
/-- C4 (counterexample): the claim that every exit path of
`KInduction::check_until` leaves the solver context stack balanced is
false: on this concrete run returning UNSAFE, the context pushed by
`base_step` is never popped, so the final stack has an extra level. -/
theorem kinduction_unbalanced_context_cex :
    (KInduction.run tsW oracleSat2 0).1 = ProverResult.FALSE ∧
    (KInduction.run tsW oracleSat2 0).2.levels.length ≠ 1 := by
  refine ⟨rfl, ?_⟩
  have h : (KInduction.run tsW oracleSat2 0).2.levels.length = 2 := rfl
  omega

open KInduction in
/-- C4 (amended): in a fresh run of `KInduction::check_until`, the
solver context stack is balanced (exactly the initial level) precisely
when the run returns UNKNOWN after exhausting all depths; on the
UNSAFE exit (base_step's SAT return) and the SAFE exit
(inductive_step's UNSAT return) exactly one pushed context level is
left unpopped. -/
theorem kinduction_context_levels {V D : Type} (ts : TransSys V D)
    (oracle : Oracle V D) (k : Int) :
    ((KInduction.run ts oracle k).1 = ProverResult.UNKNOWN →
      (KInduction.run ts oracle k).2.levels.length = 1) ∧
    ((KInduction.run ts oracle k).1 ≠ ProverResult.UNKNOWN →
      (KInduction.run ts oracle k).2.levels.length = 2) := by
  rw [KInduction.run, check_until, startSt_eq ts]
  exact ⟨(check_until_aux_run ts oracle (k + 1).toNat 0 tfTrue).2.1,
         (check_until_aux_run ts oracle (k + 1).toNat 0 tfTrue).2.2⟩

open KInduction in
/-- Witness for C4's amended statement at a concrete input: the
UNSAFE-returning run ends with exactly one extra context level. -/
theorem kinduction_context_levels_witness :
    (KInduction.run tsW oracleSat2 0).2.levels.length = 2 :=
  (kinduction_context_levels tsW oracleSat2 0).2 (by
    have h : (KInduction.run tsW oracleSat2 0).1 = ProverResult.FALSE := rfl
    rw [h]
    exact fun hc => ProverResult.noConfusion hc)

open KInduction in
/-- C5: after the inductive step at depth `i` (in the composition of the
engine's base and inductive steps for depths `0 … i`), the accumulated
`simple_path_` constraint is logically equivalent to the conjunction
over all pairs `0 ≤ j < m ≤ i` of the disjunction over the state
variables `v` of `v@m ≠ v@j`; consequently it is satisfied by every
trace whose states at times `0 … i` are pairwise distinct on the state
variables. -/
theorem kinduction_simple_path_correct {V D : Type} (ts : TransSys V D)
    (oracle : Oracle V D) (i : Nat) (π : Nat → V → D) :
    ((iterState ts oracle (i + 1)).simplePath π ↔
      ∀ m, m ≤ i → ∀ j, j < m → ∃ v ∈ ts.vars, π m v ≠ π j v) ∧
    ((∀ j m, j < m → m ≤ i → ¬ stateEq ts (π j) (π m)) →
      (iterState ts oracle (i + 1)).simplePath π) := by
  have hsem : (iterState ts oracle (i + 1)).simplePath π ↔
      ∀ m, m ≤ i → ∀ j, j < m → ∃ v ∈ ts.vars, π m v ≠ π j v := by
    rw [iterState_simplePath, spAccum_sem]
    constructor
    · intro h m hm j hj
      exact h m (Nat.lt_succ_of_le hm) j hj
    · intro h m hm j hj
      exact h m (Nat.lt_succ_iff.mp hm) j hj
  refine ⟨hsem, ?_⟩
  intro hdist
  rw [hsem]
  intro m hm j hj
  have hne := hdist j m hj hm
  rw [stateEq] at hne
  push_neg at hne
  obtain ⟨v, hv, hvne⟩ := hne
  exact ⟨v, hv, fun he => hvne he.symm⟩

open KInduction in
/-- Witness for C5 at a concrete input: for the one-variable system and
the trace that flips the variable between times 0 and 1 (pairwise
distinct states), the accumulated simple-path constraint after the
inductive step at depth 1 holds. -/
theorem kinduction_simple_path_witness :
    (iterState tsW oracleUnsatAll 2).simplePath piW :=
  (kinduction_simple_path_correct tsW oracleUnsatAll 1 piW).2 (by
    intro j m hj hm
    have hj0 : j = 0 := by omega
    have hm1 : m = 1 := by omega
    subst hj0
    subst hm1
    intro hEq
    have h := hEq () (by simp [tsW])
    simp [piW] at h)

lemma eq_chain_error :
    ∀ (suffix : List Trm) (last : Trm) (cube : List Trm) (r : ReprSt),
      suffix ≠ [] → eq_chain last suffix cube r = Except.error IterErr.derefEnd := by
  intro suffix
  induction suffix with
  | nil =>
    intro last cube r h
    exact absurd rfl h
  | cons a rest ih =>
    intro last cube r h
    cases rest with
    | nil => rfl
    | cons term rest2 =>
      show eq_chain term (term :: rest2) (cube ++ [mkApp2 PrimOp.Equal last term])
          (updateRepr r term) = Except.error IterErr.derefEnd
      exact ih term (cube ++ [mkApp2 PrimOp.Equal last term]) (updateRepr r term) (by simp)

lemma process_class_error (classVal : Trm) (terms : List Trm) (cube : List Trm) :
    process_class classVal terms cube = Except.error IterErr.derefEnd := by
  cases terms with
  | nil => rfl
  | cons last rest =>
    show eq_chain last (last :: rest) cube
        { repr := classVal, found := false, reprVal := true } = Except.error IterErr.derefEnd
    exact eq_chain_error (last :: rest) last cube _ (by simp)

/-- C10: the claim that the equality-chain traversal of
IC3SA::construct_partition only dereferences valid positions is wrong on
the code: for every class — of any size, a singleton included — the loop
body evaluates `*(++it)` after the guard `it != end`, which dereferences
the past-the-end iterator when `it` was at the last element (and for an
empty class already `*cbegin()` is past-the-end), so processing any
class, and hence any partition containing a class, fails. -/
theorem construct_partition_deref_past_end :
    (∀ (classVal : Trm) (terms : List Trm) (cube : List Trm),
      process_class classVal terms cube = Except.error IterErr.derefEnd) ∧
    (∀ (s : SortK) (c : Trm × List Trm) (cls : List (Trm × List Trm))
        (rest : List (SortK × List (Trm × List Trm))) (cube : List Trm),
      construct_partition ((s, c :: cls) :: rest) cube = Except.error IterErr.derefEnd) := by
  refine ⟨process_class_error, ?_⟩
  intro s c cls rest cube
  rw [construct_partition]
  have h : process_sort (c :: cls) cube = Except.error IterErr.derefEnd := by
    rw [process_sort]
    have h2 : process_classes (c :: cls) cube = Except.error IterErr.derefEnd := by
      rw [process_classes, process_class_error]
    rw [h2]
  rw [h]

/-- C6: contrary to the claim, IC3SA::construct_partition never appends
any disequality between class representatives: the `representatives`
vector is never populated, so on every input the function either fails
(dereferencing the end iterator while traversing some class) or — when
there is no class at all — returns the cube unchanged, with no
disequality appended. -/
theorem construct_partition_no_diseqs :
    ∀ (ec : List (SortK × List (Trm × List Trm))) (cube : List Trm),
      construct_partition ec cube = Except.error IterErr.derefEnd ∨
      construct_partition ec cube = Except.ok cube := by
  intro ec
  induction ec with
  | nil =>
    intro cube
    right
    rfl
  | cons s rest ih =>
    intro cube
    rw [construct_partition]
    cases hs : s.2 with
    | nil =>
      have h : process_sort [] cube = Except.ok cube := by
        show Except.ok (cube ++ pair_diseqs []) = Except.ok cube
        simp [pair_diseqs]
      rw [h]
      exact ih cube
    | cons c cls =>
      have h : process_sort (c :: cls) cube = Except.error IterErr.derefEnd := by
        rw [process_sort]
        have h2 : process_classes (c :: cls) cube = Except.error IterErr.derefEnd := by
          rw [process_classes, process_class_error]
        rw [h2]
      rw [h]
      left
      rfl

lemma checkVarSorts_spec :
    ∀ l : List Trm,
      (checkVarSorts l = Except.error "IC3SA currently only supports bit-vectors" ↔
        ∃ v ∈ l, kindOf v.sortOf ≠ SortKind.BOOL ∧ kindOf v.sortOf ≠ SortKind.BV) ∧
      (checkVarSorts l = Except.ok () ↔
        ∀ v ∈ l, kindOf v.sortOf = SortKind.BOOL ∨ kindOf v.sortOf = SortKind.BV) := by
  intro l
  induction l with
  | nil =>
    constructor
    · simp [checkVarSorts]
    · simp [checkVarSorts]
  | cons v rest ih =>
    by_cases hv : kindOf v.sortOf ≠ SortKind.BOOL ∧ kindOf v.sortOf ≠ SortKind.BV
    · rw [checkVarSorts, if_pos hv]
      constructor
      · constructor
        · intro _
          exact ⟨v, by simp, hv⟩
        · intro _
          rfl
      · constructor
        · intro h
          exact Except.noConfusion h
        · intro h
          exact absurd (h v (by simp)) (by tauto)
    · rw [checkVarSorts, if_neg hv]
      have hv' : kindOf v.sortOf = SortKind.BOOL ∨ kindOf v.sortOf = SortKind.BV := by
        tauto
      constructor
      · rw [ih.1]
        constructor
        · rintro ⟨u, hu, h⟩
          exact ⟨u, by simp [hu], h⟩
        · rintro ⟨u, hu, h⟩
          rcases List.mem_cons.mp hu with rfl | hu'
          · exact absurd hv' (by tauto)
          · exact ⟨u, hu', h⟩
      · rw [ih.2]
        constructor
        · intro h u hu
          rcases List.mem_cons.mp hu with rfl | hu'
          · exact hv'
          · exact h u hu'
        · intro h u hu
          exact h u (List.mem_cons_of_mem v hu)

lemma checkVarSorts_error_msg :
    ∀ (l : List Trm) (e : String),
      checkVarSorts l = Except.error e → e = "IC3SA currently only supports bit-vectors" := by
  intro l
  induction l with
  | nil =>
    intro e h
    exact Except.noConfusion h
  | cons v rest ih =>
    intro e h
    rw [checkVarSorts] at h
    split at h
    · injection h with h2
      exact h2.symm
    · exact ih e h

/-- C8: IC3SA::check_ts throws the unsupported-theory error exactly when
some state or input variable has a sort whose kind is neither BOOL nor
BV, and returns normally exactly when every state and input variable is
of BOOL or BV kind (the method is const and the embedding is a pure
function: nothing is modified). -/
theorem ic3sa_check_ts_unsupported_iff (statevars inputvars : List Trm) :
    (check_ts statevars inputvars = Except.error "IC3SA currently only supports bit-vectors" ↔
      ∃ v ∈ statevars ++ inputvars,
        kindOf v.sortOf ≠ SortKind.BOOL ∧ kindOf v.sortOf ≠ SortKind.BV) ∧
    (check_ts statevars inputvars = Except.ok () ↔
      ∀ v ∈ statevars ++ inputvars,
        kindOf v.sortOf = SortKind.BOOL ∨ kindOf v.sortOf = SortKind.BV) := by
  cases hs : checkVarSorts statevars with
  | error e =>
    have he := checkVarSorts_error_msg statevars e hs
    subst he
    have hct : check_ts statevars inputvars =
        Except.error "IC3SA currently only supports bit-vectors" := by
      unfold check_ts
      rw [hs]
    rw [hct]
    obtain ⟨v, hv, hbad⟩ := (checkVarSorts_spec statevars).1.mp hs
    constructor
    · constructor
      · intro _
        exact ⟨v, List.mem_append_left _ hv, hbad⟩
      · intro _
        rfl
    · constructor
      · intro h
        exact Except.noConfusion h
      · intro h
        exact absurd (h v (List.mem_append_left _ hv)) (by tauto)
  | ok u =>
    cases u
    have hall := (checkVarSorts_spec statevars).2.mp hs
    have hct : check_ts statevars inputvars = checkVarSorts inputvars := by
      unfold check_ts
      rw [hs]
    rw [hct]
    constructor
    · rw [(checkVarSorts_spec inputvars).1]
      constructor
      · rintro ⟨v, hv, hbad⟩
        exact ⟨v, List.mem_append_right _ hv, hbad⟩
      · rintro ⟨v, hv, hbad⟩
        rcases List.mem_append.mp hv with hv' | hv'
        · exact absurd (hall v hv') (by tauto)
        · exact ⟨v, hv', hbad⟩
    · rw [(checkVarSorts_spec inputvars).2]
      constructor
      · intro h v hv
        rcases List.mem_append.mp hv with hv' | hv'
        · exact hall v hv'
        · exact h v hv'
      · intro h v hv
        exact h v (List.mem_append_right _ hv)

/-- C1: contrary to the claim, the refinement of CegarValues is a stub:
cegar_refine builds the labelled BMC check but then unconditionally
throws PonoException("CegarValues::cegar_refine NYI") — it never adds
the unsat-core lemmas and never lets check_until iterate or return
UNSAFE; consequently CegarValues::check_until propagates the exception
whenever the inner prover reports UNSAFE (shown here on a concrete
run). -/
theorem cegar_refine_nyi :
    (∀ (cex_length : Nat) (ci ct cb : Trm) (tv : List (Trm × Trm))
        (lbl : Trm → Trm) (csa : List Trm → List Trm → SatResult),
        cegar_refine cex_length ci ct cb tv lbl csa =
          Except.error "CegarValues::cegar_refine NYI") ∧
    cegar_check_until (fun _ => ProverResult.FALSE)
        (cegar_refine 1 (Trm.sym "i" SortK.bool) (Trm.sym "t" SortK.bool)
          (Trm.sym "b" SortK.bool) [] (fun t => t) (fun _ _ => SatResult.sat)) 3 10 =
      Except.error "CegarValues::cegar_refine NYI" :=
  ⟨fun _ _ _ _ _ _ _ => rfl, rfl⟩

lemma lookupT_mem :
    ∀ (l : List (Trm × Trm)) (t r : Trm), lookupT l t = some r → (t, r) ∈ l := by
  intro l
  induction l with
  | nil =>
    intro t r h
    exact Option.noConfusion h
  | cons p rest ih =>
    intro t r h
    rw [lookupT] at h
    split at h
    · rename_i hp
      injection h with h2
      subst h2
      subst hp
      have hp2 : (p.1, p.2) = p := rfl
      rw [hp2]
      exact List.mem_cons_self p rest
    · exact List.mem_cons_of_mem p (ih t r h)


lemma occursIn_sym_iff (v : Trm) (n : String) (s : SortK) :
    occursIn v (Trm.sym n s) = true ↔ v = Trm.sym n s := by
  simp [occursIn]

lemma occursIn_val_iff (v : Trm) (p : Nat) (s : SortK) :
    occursIn v (Trm.val p s) = true ↔ v = Trm.val p s := by
  simp [occursIn]

lemma occursIn_app_iff (v : Trm) (op : PrimOp) (s : SortK) (args : TrmList) :
    occursIn v (Trm.app op s args) = true ↔
      v = Trm.app op s args ∨ occursInList v args = true := by
  simp [occursIn]

lemma IsValNA_not_sym (n : String) (s : SortK) : ¬ IsValNA (Trm.sym n s) := by
  rintro ⟨h1, _⟩
  exact Bool.noConfusion h1

lemma IsValNA_not_app (op : PrimOp) (s : SortK) (args : TrmList) :
    ¬ IsValNA (Trm.app op s args) := by
  rintro ⟨h1, _⟩
  exact Bool.noConfusion h1

mutual
/-- Main correctness of the ValueAbstractor walk: under the walker
invariant, the rewrite it returns is the structural abstraction
`specAbs`, the invariant is maintained, `abstracted_values_` only
grows, and after the walk every non-array value occurring in the
visited term has its frozen variable recorded. -/
lemma visit_term_spec : ∀ (t : Trm) (st : AbsSt), AbsInv st →
    (visit_term t st).1 = specAbs t ∧
    AbsInv (visit_term t st).2 ∧
    (∀ q, q ∈ st.toVals → q ∈ (visit_term t st).2.toVals) ∧
    (∀ v : Trm, IsValNA v → occursIn v t = true →
      (freshVar v, v) ∈ (visit_term t st).2.toVals)
  | Trm.sym n s, st, inv => by
    obtain ⟨invS, invC, invW⟩ := inv
    cases hl : lookupT st.cache (Trm.sym n s) with
    | some r =>
      have he : visit_term (Trm.sym n s) st = (r, st) := by
        rw [visit_term, hl]
      have hmem := lookupT_mem st.cache _ r hl
      rw [he]
      exact ⟨invS (_, r) hmem, ⟨invS, invC, invW⟩, fun q hq => hq,
        fun v hv ho => invC (_, r) hmem v hv ho⟩
    | none =>
      have he : visit_term (Trm.sym n s) st =
          (Trm.sym n s, saveCache (Trm.sym n s) (Trm.sym n s) st) := by
        rw [visit_term, hl]
      rw [he]
      refine ⟨rfl, ⟨?_, ?_, invW⟩, fun q hq => hq, ?_⟩
      · intro p hp
        rcases List.mem_cons.mp hp with rfl | hp'
        · rfl
        · exact invS p hp'
      · intro p hp v hv ho
        rcases List.mem_cons.mp hp with rfl | hp'
        · exact absurd ((occursIn_sym_iff v n s).mp ho ▸ hv) (IsValNA_not_sym n s)
        · exact invC p hp' v hv ho
      · intro v hv ho
        exact absurd ((occursIn_sym_iff v n s).mp ho ▸ hv) (IsValNA_not_sym n s)
  | Trm.val pl s, st, inv => by
    obtain ⟨invS, invC, invW⟩ := inv
    cases hl : lookupT st.cache (Trm.val pl s) with
    | some r =>
      have he : visit_term (Trm.val pl s) st = (r, st) := by
        rw [visit_term, hl]
      have hmem := lookupT_mem st.cache _ r hl
      rw [he]
      exact ⟨invS (_, r) hmem, ⟨invS, invC, invW⟩, fun q hq => hq,
        fun v hv ho => invC (_, r) hmem v hv ho⟩
    | none =>
      by_cases hk : kindOf s ≠ SortKind.ARRAY
      · have he : visit_term (Trm.val pl s) st =
            (freshVar (Trm.val pl s),
             { cache := (Trm.val pl s, freshVar (Trm.val pl s)) :: st.cache,
               toVals := (freshVar (Trm.val pl s), Trm.val pl s) :: st.toVals }) := by
          rw [visit_term, hl]
          dsimp only
          rw [if_pos hk]
        rw [he]
        refine ⟨by rw [specAbs, if_pos hk], ⟨?_, ?_, ?_⟩, ?_, ?_⟩
        · intro p hp
          rcases List.mem_cons.mp hp with rfl | hp'
          · show freshVar (Trm.val pl s) = specAbs (Trm.val pl s)
            rw [specAbs, if_pos hk]
          · exact invS p hp'
        · intro p hp v hv ho
          rcases List.mem_cons.mp hp with rfl | hp'
          · have hveq := (occursIn_val_iff v pl s).mp ho
            subst hveq
            exact List.mem_cons_self _ _
          · exact List.mem_cons_of_mem _ (invC p hp' v hv ho)
        · intro q hq
          rcases List.mem_cons.mp hq with rfl | hq'
          · exact ⟨⟨rfl, hk⟩, rfl⟩
          · exact invW q hq'
        · intro q hq
          exact List.mem_cons_of_mem _ hq
        · intro v hv ho
          have hveq := (occursIn_val_iff v pl s).mp ho
          subst hveq
          exact List.mem_cons_self _ _
      · have he : visit_term (Trm.val pl s) st =
            (Trm.val pl s, saveCache (Trm.val pl s) (Trm.val pl s) st) := by
          rw [visit_term, hl]
          dsimp only
          rw [if_neg hk]
        rw [he]
        refine ⟨by rw [specAbs, if_neg hk], ⟨?_, ?_, invW⟩, fun q hq => hq, ?_⟩
        · intro p hp
          rcases List.mem_cons.mp hp with rfl | hp'
          · show Trm.val pl s = specAbs (Trm.val pl s)
            rw [specAbs, if_neg hk]
          · exact invS p hp'
        · intro p hp v hv ho
          rcases List.mem_cons.mp hp with rfl | hp'
          · have hveq := (occursIn_val_iff v pl s).mp ho
            subst hveq
            exact absurd hv.2 (by simpa using hk)
          · exact invC p hp' v hv ho
        · intro v hv ho
          have hveq := (occursIn_val_iff v pl s).mp ho
          subst hveq
          exact absurd hv.2 (by simpa using hk)
  | Trm.app op s args, st, inv => by
    obtain ⟨invS, invC, invW⟩ := inv
    cases hl : lookupT st.cache (Trm.app op s args) with
    | some r =>
      have he : visit_term (Trm.app op s args) st = (r, st) := by
        rw [visit_term, hl]
      have hmem := lookupT_mem st.cache _ r hl
      rw [he]
      exact ⟨invS (_, r) hmem, ⟨invS, invC, invW⟩, fun q hq => hq,
        fun v hv ho => invC (_, r) hmem v hv ho⟩
    | none =>
      obtain ⟨hA1, hA2, hA3, hA4⟩ := visit_list_spec args st ⟨invS, invC, invW⟩
      obtain ⟨invS2, invC2, invW2⟩ := hA2
      by_cases hop : op ∉ nl_ops
      · have he : visit_term (Trm.app op s args) st =
            (Trm.app op s (visit_list args st).1,
             saveCache (Trm.app op s args) (Trm.app op s (visit_list args st).1)
               (visit_list args st).2) := by
          rw [visit_term, hl]
          dsimp only
          rw [if_pos hop]
        rw [he]
        refine ⟨by rw [hA1, specAbs, if_pos hop], ⟨?_, ?_, invW2⟩, hA3, ?_⟩
        · intro p hp
          rcases List.mem_cons.mp hp with rfl | hp'
          · show Trm.app op s (visit_list args st).1 = specAbs (Trm.app op s args)
            rw [hA1, specAbs, if_pos hop]
          · exact invS2 p hp'
        · intro p hp v hv ho
          rcases List.mem_cons.mp hp with rfl | hp'
          · rcases (occursIn_app_iff v op s args).mp ho with rfl | ho'
            · exact absurd hv (IsValNA_not_app op s args)
            · exact hA4 v hv ho'
          · exact invC2 p hp' v hv ho
        · intro v hv ho
          rcases (occursIn_app_iff v op s args).mp ho with rfl | ho'
          · exact absurd hv (IsValNA_not_app op s args)
          · exact hA4 v hv ho'
      · have he : visit_term (Trm.app op s args) st =
            (Trm.app op s args,
             saveCache (Trm.app op s args) (Trm.app op s args) (visit_list args st).2) := by
          rw [visit_term, hl]
          dsimp only
          rw [if_neg hop]
        rw [he]
        refine ⟨by rw [specAbs, if_neg hop], ⟨?_, ?_, invW2⟩, hA3, ?_⟩
        · intro p hp
          rcases List.mem_cons.mp hp with rfl | hp'
          · show Trm.app op s args = specAbs (Trm.app op s args)
            rw [specAbs, if_neg hop]
          · exact invS2 p hp'
        · intro p hp v hv ho
          rcases List.mem_cons.mp hp with rfl | hp'
          · rcases (occursIn_app_iff v op s args).mp ho with rfl | ho'
            · exact absurd hv (IsValNA_not_app op s args)
            · exact hA4 v hv ho'
          · exact invC2 p hp' v hv ho
        · intro v hv ho
          rcases (occursIn_app_iff v op s args).mp ho with rfl | ho'
          · exact absurd hv (IsValNA_not_app op s args)
          · exact hA4 v hv ho'

/-- List version of `visit_term_spec` for the walker's child visits. -/
lemma visit_list_spec : ∀ (ts : TrmList) (st : AbsSt), AbsInv st →
    (visit_list ts st).1 = specAbsList ts ∧
    AbsInv (visit_list ts st).2 ∧
    (∀ q, q ∈ st.toVals → q ∈ (visit_list ts st).2.toVals) ∧
    (∀ v : Trm, IsValNA v → occursInList v ts = true →
      (freshVar v, v) ∈ (visit_list ts st).2.toVals)
  | TrmList.nil, st, inv => by
    refine ⟨rfl, inv, fun q hq => hq, ?_⟩
    intro v hv ho
    exact Bool.noConfusion ho
  | TrmList.cons t ts, st, inv => by
    obtain ⟨h11, h12, h13, h14⟩ := visit_term_spec t st inv
    obtain ⟨h21, h22, h23, h24⟩ := visit_list_spec ts (visit_term t st).2 h12
    have he : visit_list (TrmList.cons t ts) st =
        (TrmList.cons (visit_term t st).1 (visit_list ts (visit_term t st).2).1,
         (visit_list ts (visit_term t st).2).2) := rfl
    rw [he]
    refine ⟨?_, h22, ?_, ?_⟩
    · show TrmList.cons (visit_term t st).1 (visit_list ts (visit_term t st).2).1 =
        specAbsList (TrmList.cons t ts)
      rw [h11, h21, specAbsList]
    · intro q hq
      exact h23 q (h13 q hq)
    · intro v hv ho
      have ho2 := (Bool.or_eq_true _ _).mp ho
      rcases ho2 with ho' | ho'
      · exact h23 _ (h14 v hv ho')
      · exact h24 v hv ho'
end

mutual
/-- If a term contains no non-array value literal, visiting it adds
nothing to `abstracted_values_`. -/
lemma visit_term_no_vals : ∀ (t : Trm) (st : AbsSt),
    hasValNA t = false → (visit_term t st).2.toVals = st.toVals
  | Trm.sym n s, st, h => by
    cases hl : lookupT st.cache (Trm.sym n s) with
    | some r =>
      have he : visit_term (Trm.sym n s) st = (r, st) := by
        rw [visit_term, hl]
      rw [he]
    | none =>
      have he : visit_term (Trm.sym n s) st =
          (Trm.sym n s, saveCache (Trm.sym n s) (Trm.sym n s) st) := by
        rw [visit_term, hl]
      rw [he]
      rfl
  | Trm.val pl s, st, h => by
    have hk : ¬ (kindOf s ≠ SortKind.ARRAY) := by
      simpa [hasValNA] using h
    cases hl : lookupT st.cache (Trm.val pl s) with
    | some r =>
      have he : visit_term (Trm.val pl s) st = (r, st) := by
        rw [visit_term, hl]
      rw [he]
    | none =>
      have he : visit_term (Trm.val pl s) st =
          (Trm.val pl s, saveCache (Trm.val pl s) (Trm.val pl s) st) := by
        rw [visit_term, hl]
        dsimp only
        rw [if_neg hk]
      rw [he]
      rfl
  | Trm.app op s args, st, h => by
    have hargs : hasValNAList args = false := by
      simpa [hasValNA] using h
    cases hl : lookupT st.cache (Trm.app op s args) with
    | some r =>
      have he : visit_term (Trm.app op s args) st = (r, st) := by
        rw [visit_term, hl]
      rw [he]
    | none =>
      have hrec := visit_list_no_vals args st hargs
      by_cases hop : op ∉ nl_ops
      · have he : visit_term (Trm.app op s args) st =
            (Trm.app op s (visit_list args st).1,
             saveCache (Trm.app op s args) (Trm.app op s (visit_list args st).1)
               (visit_list args st).2) := by
          rw [visit_term, hl]
          dsimp only
          rw [if_pos hop]
        rw [he]
        exact hrec
      · have he : visit_term (Trm.app op s args) st =
            (Trm.app op s args,
             saveCache (Trm.app op s args) (Trm.app op s args) (visit_list args st).2) := by
          rw [visit_term, hl]
          dsimp only
          rw [if_neg hop]
        rw [he]
        exact hrec

lemma visit_list_no_vals : ∀ (ts : TrmList) (st : AbsSt),
    hasValNAList ts = false → (visit_list ts st).2.toVals = st.toVals
  | TrmList.nil, st, h => rfl
  | TrmList.cons t ts, st, h => by
    have hboth := (Bool.or_eq_false_iff).mp (by simpa [hasValNAList] using h)
    have he : (visit_list (TrmList.cons t ts) st).2 =
        (visit_list ts (visit_term t st).2).2 := rfl
    rw [he, visit_list_no_vals ts _ hboth.2, visit_term_no_vals t st hboth.1]
end

/-- C7: when CegarValues::cegar_abstract succeeds on a relational
system, the new init, trans and bad are the structural value
abstraction of the originals (every non-array leaf value replaced,
`nl_ops` applications kept as the original term, other applications
rebuilt over abstracted children); the `abstracted_values_` map sends
each fresh variable back to its value of the same sort; each such
variable is frozen (`next(var) = var` is among the assignments); and
every non-array value occurring in init, trans or the property has an
entry in the map. -/
theorem cegar_abstract_correct (ts : RTS) (prop : Trm) (res : AbsResult)
    (h : cegar_abstract ts prop = Except.ok res) :
    res.ts.init = specAbs ts.init ∧
    res.ts.trans = specAbs ts.trans ∧
    res.bad = mkApp1 PrimOp.Not (specAbs prop) ∧
    (∀ q ∈ res.toVals,
      q.2.is_value = true ∧ kindOf q.2.sortOf ≠ SortKind.ARRAY ∧
      q.1 = freshVar q.2 ∧ q.1.sortOf = q.2.sortOf ∧ (q.1, q.1) ∈ res.ts.nexts) ∧
    (∀ v : Trm, IsValNA v →
      (occursIn v ts.init = true ∨ occursIn v ts.trans = true ∨ occursIn v prop = true) →
      (freshVar v, v) ∈ res.toVals) ∧
    (∀ (op : PrimOp) (s : SortK) (args : TrmList),
      specAbs (Trm.app op s args) =
        if op ∉ nl_ops then Trm.app op s (specAbsList args) else Trm.app op s args) := by
  have inv0 : AbsInv { cache := [], toVals := [] } := by
    refine ⟨?_, ?_, ?_⟩
    · intro p hp
      exact absurd hp (List.not_mem_nil p)
    · intro p hp
      exact absurd hp (List.not_mem_nil p)
    · intro q hq
      exact absurd hq (List.not_mem_nil q)
  obtain ⟨hI1, hI2, hI3, hI4⟩ := visit_term_spec ts.init { cache := [], toVals := [] } inv0
  obtain ⟨hT1, hT2, hT3, hT4⟩ :=
    visit_term_spec ts.trans (visit_term ts.init { cache := [], toVals := [] }).2 hI2
  obtain ⟨hP1, hP2, hP3, hP4⟩ :=
    visit_term_spec prop
      (visit_term ts.trans (visit_term ts.init { cache := [], toVals := [] }).2).2 hT2
  rw [cegar_abstract] at h
  by_cases hfun : ts.functional = true
  · rw [if_pos hfun] at h
    exact Except.noConfusion h
  · rw [if_neg hfun] at h
    dsimp only at h
    split at h
    · exact Except.noConfusion h
    · injection h with h2
      subst h2
      refine ⟨hI1, hT1, by rw [hP1], ?_, ?_, ?_⟩
      · intro q hq
        obtain ⟨hq1, hq2⟩ := hP2.2.2 q hq
        refine ⟨hq1.1, hq1.2, hq2, ?_, ?_⟩
        · rw [hq2]
          rfl
        · exact List.mem_append_right _ (List.mem_map.mpr ⟨q, hq, rfl⟩)
      · intro v hv ho
        rcases ho with ho | ho | ho
        · exact hP3 _ (hT3 _ (hI4 v hv ho))
        · exact hP3 _ (hT4 v hv ho)
        · exact hP4 v hv ho
      · intro op s args
        rw [specAbs]


/-- Witness for C7 at a concrete input: abstracting the witness system
produces exactly `resC7`, and all the claimed properties hold of it. -/
theorem cegar_abstract_correct_witness :
    resC7.ts.init = specAbs tsC7.init ∧
    resC7.ts.trans = specAbs tsC7.trans ∧
    resC7.bad = mkApp1 PrimOp.Not (specAbs propC7) ∧
    (∀ q ∈ resC7.toVals,
      q.2.is_value = true ∧ kindOf q.2.sortOf ≠ SortKind.ARRAY ∧
      q.1 = freshVar q.2 ∧ q.1.sortOf = q.2.sortOf ∧ (q.1, q.1) ∈ resC7.ts.nexts) ∧
    (∀ v : Trm, IsValNA v →
      (occursIn v tsC7.init = true ∨ occursIn v tsC7.trans = true ∨
        occursIn v propC7 = true) →
      (freshVar v, v) ∈ resC7.toVals) ∧
    (∀ (op : PrimOp) (s : SortK) (args : TrmList),
      specAbs (Trm.app op s args) =
        if op ∉ nl_ops then Trm.app op s (specAbsList args) else Trm.app op s args) :=
  cegar_abstract_correct tsC7 propC7 resC7 (by rfl)

/-- C9: on a relational transition system whose init, trans and
property contain no non-array value literal, nothing is abstracted and
the assertion `assert(prover_to_vals.size())` of
CegarValues::cegar_abstract fails: the value-abstraction driver cannot
proceed on a value-free system. -/
theorem cegar_abstract_assert_nonempty (ts : RTS) (prop : Trm)
    (hfun : ts.functional = false)
    (h1 : hasValNA ts.init = false) (h2 : hasValNA ts.trans = false)
    (h3 : hasValNA prop = false) :
    cegar_abstract ts prop = Except.error "assertion failed: prover_to_vals.size()" := by
  rw [cegar_abstract, if_neg (by rw [hfun]; exact Bool.noConfusion)]
  dsimp only
  have hv : (visit_term prop
      (visit_term ts.trans (visit_term ts.init { cache := [], toVals := [] }).2).2).2.toVals =
      ([] : List (Trm × Trm)) := by
    rw [visit_term_no_vals prop _ h3, visit_term_no_vals ts.trans _ h2,
      visit_term_no_vals ts.init _ h1]
  rw [hv]
  rfl


/-- Witness for C9 at a concrete input: abstracting the value-free
witness system fails the non-empty-map assertion. -/
theorem cegar_abstract_assert_nonempty_witness :
    cegar_abstract tsC9 (Trm.sym "p" SortK.bool) =
      Except.error "assertion failed: prover_to_vals.size()" :=
  cegar_abstract_assert_nonempty tsC9 (Trm.sym "p" SortK.bool) rfl rfl rfl rfl
